import Mathlib

/-!
Verification of the AI-configuration profile switcher (`src/extension.ts`).

The development shallowly embeds the profile lifecycle and workspace
mutation engine of the extension:

* `CONFIG_MAPPINGS` / `detectAIConfigurations` — the tool catalog and the
  footprint detector (lines 28-35 and 106-125 of the source);
* `getProfiles` / `saveProfile` / `saveProfiles` / `createProfile` — the
  profile store (lines 80-143);
* `switchProfile` / `backupCurrentConfig` — the backup → clear → write
  switch (lines 145-231).

The workspace is modelled as a finite association list from paths to file
contents.  A path is the list of its `/`-separated segments, so the
directory entries that Node's `path.join` produces can be reasoned about
with list operations.  Writing a file conses the new entry in front of the
list (later writes shadow earlier ones, and `lookupFS` returns the most
recent write, mirroring a real filesystem's single-content-per-path
semantics).  Directories are implicit: a directory exists when some file
lives strictly below it, which is exactly what the source's
`fs.pathExists`/`glob` checks observe, and `fs.remove` deletes a file or a
whole directory subtree.
-/

set_option maxRecDepth 10000

set_option maxHeartbeats 1000000

/-- The closed set of supported tool identifiers (`AIToolType`, line 7). -/
inductive AIToolType where
  | cursor
  | windsurf
  | kilocode
  | claudeDev
  | copilot
  | other
deriving DecidableEq

/-- The string name of each tool as it appears in the source
(`'claude-dev'` is the only one whose literal differs from the Lean
constructor name). -/
def toolName : AIToolType → String
  | .cursor => "cursor"
  | .windsurf => "windsurf"
  | .kilocode => "kilocode"
  | .claudeDev => "claude-dev"
  | .copilot => "copilot"
  | .other => "other"

/-- A stored profile (`AIProfile`, lines 9-19).  `configs` maps a file name
to its content; the source allows a raw string or a structured object and
writes the latter with `fs.writeJSON`, so a content value is represented
here by the string that ends up on disk. -/
structure AIProfile where
  name : String
  description : String
  configs : List (String × String)
  ignorePatterns : String
  rules : String
  memoryBank : String
  aiTool : AIToolType
deriving DecidableEq

/-- Iteration order of `Object.entries(CONFIG_MAPPINGS)`: JavaScript
objects enumerate string keys in insertion order, which is the declaration
order of lines 29-34. -/
def allTools : List AIToolType :=
  [.cursor, .windsurf, .kilocode, .claudeDev, .copilot, .other]

/-- The tool catalog (`CONFIG_MAPPINGS`, lines 28-35), verbatim. -/
def CONFIG_MAPPINGS : AIToolType → List String
  | .cursor => [".cursorrules", ".cursorignore", ".cursor"]
  | .windsurf => [".windsurfrules", ".windsurfignore", "windsurf.json", ".windsurf"]
  | .kilocode => [".ai_config.toml", ".pr_agent.toml", ".kiloignore", ".kilo"]
  | .claudeDev => [".claude-rules", ".claude-ignore", "claude-dev.json", ".claude"]
  | .copilot => [".github/copilot-instructions.md", ".github"]
  | .other => [".aiexclude", ".amazonq", "devfile.yaml", ".gemini", ".replit",
               "replit.nix", ".cody", ".clinerules", "memory_bank"]

/-- The union of all footprints in the order the nested loops of
lines 165-173 (and 217-227) visit them. -/
def footprintUnionStrings : List String := allTools.flatMap CONFIG_MAPPINGS

/-- A path under the target directory, as its list of segments. -/
abbrev FsPath := List String

/-- The files of the target directory: an association list from path to
content.  The first entry with a given key is the file's current content. -/
abbrev FS := List (FsPath × String)

/-- Splitting a character list at `/`, accumulating the current segment in
reverse.  (Structural recursion so that concrete paths evaluate inside the
kernel.) -/
def splitSegsCore : List Char → List Char → List String
  | [], acc => [String.mk acc.reverse]
  | c :: rest, acc =>
    if c = '/' then String.mk acc.reverse :: splitSegsCore rest []
    else splitSegsCore rest (c :: acc)

/-- Segments of a relative file name: split on `/`, discarding empty
segments and `.` the way Node's path normalization does.  `..` segments
are kept — their treatment is `joinRel`'s business. -/
def splitSegs (s : String) : List String :=
  (splitSegsCore s.data []).filter (fun c => decide (c ≠ "" ∧ c ≠ "."))

/-- Model of `path.join(workspace, name)` viewed from the workspace root: the
normalized relative path if the joined path stays inside the workspace,
`none` if a `..` segment pops past the root and the path leaves the
directory.  (The absolute location of the workspace is abstracted away, so
a path that leaves the root is treated as outside the modelled directory.) -/
def joinRel (name : String) : Option FsPath :=
  (splitSegs name).foldl
    (fun acc s =>
      match acc with
      | none => none
      | some l =>
        if s = ".." then (if l.isEmpty then none else some l.dropLast)
        else some (l ++ [s]))
    (some [])

/-- Node's `path.join(base, name)` for an absolute base directory `base`
(given by its segments): append the name's segments and normalize, a `..`
popping the previous segment.  A leading `/` in `name` is *not* honoured as
an absolute path — `path.join` concatenates first, so such a name still
lands under `base` — but `..` segments do climb out of `base`. -/
def joinAbs (base : FsPath) (name : String) : FsPath :=
  (base ++ splitSegs name).foldl
    (fun acc s => if s = ".." then acc.dropLast else acc ++ [s]) []

/-- Content of the file at `p`, if one exists. -/
def lookupFS : FS → FsPath → Option String
  | [], _ => none
  | e :: rest, p => if e.1 = p then some e.2 else lookupFS rest p

/-- Model of `fs.writeFile`/`fs.writeJSON` at an exact path: the new entry shadows
any previous content of the same path. -/
def writePath (fs : FS) (p : FsPath) (c : String) : FS := (p, c) :: fs

/-- Model of `fs.remove`: deletes the file at `q`, or the whole subtree when `q` is
a directory. -/
def removePath (fs : FS) (q : FsPath) : FS :=
  fs.filter (fun e => !(decide (q <+: e.1)))

/-- Model of `fs.pathExists` and of a glob match of a literal pattern: the path exists as
a file, or as a directory because some file lives below it. -/
def pathExistsIn (fs : FS) (q : FsPath) : Bool :=
  fs.any (fun e => decide (q <+: e.1))

/-- One catalogued pattern has glob matches under the workspace
(lines 112-118).  Every catalogued pattern is a literal path, so the glob
has matches exactly when that path exists. -/
def globMatches (fs : FS) (cf : String) : Bool :=
  match joinRel cf with
  | some p => pathExistsIn fs p
  | none => false

/-- Detection (`detectAIConfigurations`, lines 106-125): for each tool in catalog
order, the patterns are checked in order and the first existing one adds
the tool to the result (`break`). -/
def detectAIConfigurations (fs : FS) : List AIToolType :=
  allTools.foldl
    (fun acc t => if (CONFIG_MAPPINGS t).any (globMatches fs) then acc ++ [t] else acc)
    []

/-- One iteration of the clearing loop (lines 167-172): join the pattern
under the workspace, and remove it if it exists. -/
def clearStep (fs : FS) (cf : String) : FS :=
  match joinRel cf with
  | some p => if pathExistsIn fs p then removePath fs p else fs
  | none => fs

/-- The clearing loop over a list of catalogued patterns. -/
def clearConfigFiles (fs : FS) : List String → FS
  | [] => fs
  | cf :: rest => clearConfigFiles (clearStep fs cf) rest

/-- Writing one profile config entry (lines 176-185): the file name is
joined under the workspace; a name whose `..` segments escape the root
writes outside the directory and leaves the modelled directory unchanged.
(`fs.ensureDir` of the parent creates no file.) -/
def writeConfig (fs : FS) (name content : String) : FS :=
  match joinRel name with
  | some p => writePath fs p content
  | none => fs

/-- The writing loop over `Object.entries(profile.configs)` in insertion
order. -/
def writeConfigs (fs : FS) : List (String × String) → FS
  | [] => fs
  | e :: rest => writeConfigs (writeConfig fs e.1 e.2) rest

/-- Model of `if (field) await fs.writeFile(target, field)`: write `c` to `tgt`
when the guard is truthy. -/
def condWrite (fs : FS) (b : Bool) (tgt : FsPath) (c : String) : FS :=
  if b then writePath fs tgt c else fs

/-- The specialized config files (lines 187-198): `.rules`, `.aiignore`
and `memory_bank` are written, in that order, when the corresponding text
field is truthy, i.e. non-empty. -/
def writeReserved (fs : FS) (prof : AIProfile) : FS :=
  condWrite
    (condWrite (condWrite fs (prof.rules != "") [".rules"] prof.rules)
      (prof.ignorePatterns != "") [".aiignore"] prof.ignorePatterns)
    (prof.memoryBank != "") ["memory_bank"] prof.memoryBank

/-- The destructive part of `switchProfile`: clear every catalogued
footprint, write the profile's files, then the reserved files. -/
def applyProfile (fs : FS) (prof : AIProfile) : FS :=
  writeReserved (writeConfigs (clearConfigFiles fs footprintUnionStrings) prof.configs) prof

/-- The `backup-<timestamp>` directory under `.ai-config-backups`
(lines 212-214), as a path rooted at the workspace. -/
def backupSeg (ts : String) : FsPath := [".ai-config-backups", "backup-" ++ ts]

/-- Writing a list of entries in order (later entries shadow earlier
ones), used to model a recursive `fs.copy`. -/
def writeEntries (fs : FS) : List (FsPath × String) → FS
  | [] => fs
  | e :: rest => writeEntries (writePath fs e.1 e.2) rest

/-- Model of `fs.copy(src, dest)`: every file at or below `src` is copied to the
corresponding path below `dest`, overwriting what is there (fs-extra's
`overwrite` defaults to `true`); files already under `dest` that have no
counterpart under `src` are kept. -/
def copyTree (fs : FS) (src dest : FsPath) : FS :=
  writeEntries fs
    ((fs.filter (fun e => decide (src <+: e.1))).map
      (fun e => (dest ++ e.1.drop src.length, e.2)))

/-- One iteration of the backup loop (lines 219-226): if the catalogued
path exists it is copied to `backupPath/<configFile>`.  (`fs.ensureDir` of
the destination's parent creates no file and accepts existing
directories.) -/
def backupStep (fs : FS) (ts : String) (cf : String) : FS :=
  match joinRel cf with
  | some q => if pathExistsIn fs q then copyTree fs q (backupSeg ts ++ q) else fs
  | none => fs

/-- The backup loop over a list of catalogued patterns. -/
def backupFiles (fs : FS) (ts : String) : List String → FS
  | [] => fs
  | cf :: rest => backupFiles (backupStep fs ts cf) ts rest

/-- The backup (`backupCurrentConfig`, lines 208-231) on the success path: every
existing footprint path is copied under `.ai-config-backups/backup-<ts>`. -/
def backupCurrentConfig (fs : FS) (ts : String) : FS :=
  backupFiles fs ts footprintUnionStrings

/-- The switch (`switchProfile`, lines 145-206) once the profile is resolved: optional
backup, then clear, then write.  `ts` is the timestamp string the backup
run would use. -/
def switchProfile (backupEnabled : Bool) (ts : String) (fs : FS) (prof : AIProfile) : FS :=
  applyProfile (if backupEnabled then backupCurrentConfig fs ts else fs) prof

/-- The directory state when `backupCurrentConfig` fails on a copy: the
first `k` patterns of the loop have been processed, the failing copy
raises, `switchProfile` rethrows (line 203-205) and neither the clearing
loop nor the writing loop runs.  The partial backup stays on disk. -/
def switchFailedAtBackup (fs : FS) (ts : String) (k : Nat) : FS :=
  backupFiles fs ts (footprintUnionStrings.take k)

/-- The last content a write loop assigns to the resolved path `p` when
processing `configs` in order (later entries win, exactly as repeated
`fs.writeFile` calls do). -/
def lastWrite : List (String × String) → FsPath → Option String
  | [], _ => none
  | e :: rest, p =>
    match lastWrite rest p with
    | some c => some c
    | none => if joinRel e.1 = some p then some e.2 else none

/-- The content the reserved-file writes (lines 187-198) leave at `p`:
`.rules`, `.aiignore` and `memory_bank` get the corresponding non-empty
text field.  The three names are distinct, so order does not matter. -/
def reservedWrite (prof : AIProfile) (p : FsPath) : Option String :=
  if prof.memoryBank != "" ∧ p = ["memory_bank"] then some prof.memoryBank
  else if prof.ignorePatterns != "" ∧ p = [".aiignore"] then some prof.ignorePatterns
  else if prof.rules != "" ∧ p = [".rules"] then some prof.rules
  else none

/-- The content the whole write phase of a switch leaves at `p`, if it
writes `p` at all: a reserved write shadows a config write of the same
path because it runs later. -/
def writtenBy (prof : AIProfile) (p : FsPath) : Option String :=
  match reservedWrite prof p with
  | some c => some c
  | none => lastWrite prof.configs p

/-- Catalogued pattern `cf` covers the path `p`: removing `cf` during the
clearing loop deletes the file at `p` (the pattern is `p` itself or an
ancestor directory of `p`). -/
def coversB (cf : String) (p : FsPath) : Bool :=
  match joinRel cf with
  | some q => decide (q <+: p)
  | none => false

/-- Some catalogued footprint pattern covers `p`, so the clearing loop
deletes `p`. -/
def coveredBool (p : FsPath) : Bool := footprintUnionStrings.any (fun cf => coversB cf p)

/-- The last entry of an explicit write list at path `p` (the content
`writeEntries` leaves there, if any). -/
def lastEntry : List (FsPath × String) → FsPath → Option String
  | [], _ => none
  | e :: rest, p =>
    match lastEntry rest p with
    | some c => some c
    | none => if e.1 = p then some e.2 else none

/-- The directory outside the `.ai-config-backups` area. -/
def restrictOut (fs : FS) : FS :=
  fs.filter (fun e => !(decide ([".ai-config-backups"] <+: e.1)))

/-- Every path occurs at most once — true of any real directory listing. -/
abbrev keysNodup (fs : FS) : Prop := (fs.map Prod.fst).Nodup

/-- A catalogued pattern resolves to a non-empty path that does not start
with the `.ai-config-backups` segment (so backups never shadow or feed the
catalogued footprints).  Checked by evaluation over the catalog. -/
def headOKB (cf : String) : Bool :=
  match joinRel cf with
  | some (s :: _) => s != ".ai-config-backups"
  | _ => false

/- ### The profile store -/

/-- The persisted mapping from profile name to record. -/
abbrev ProfileMap := List (String × AIProfile)

/-- The document at `ai-profiles.json`: either it parses as the profile
mapping or it is present but malformed. -/
inductive StoreDoc where
  | valid (m : ProfileMap)
  | malformed (raw : String)
deriving DecidableEq

/-- The store location: `none` when no file exists. -/
abbrev StoreState := Option StoreDoc

/-- Loading (`getProfiles`, lines 80-86): `fs.readJSON` throws on a missing or
malformed document and the `catch` returns the empty mapping; a parsed
document is returned as is. -/
def getProfiles : StoreState → ProfileMap
  | none => []
  | some (.valid m) => m
  | some (.malformed _) => []

/-- Saving (`saveProfiles`, lines 98-104): the full mapping is serialized over the
previous document. -/
def saveProfiles (_ : StoreState) (profiles : ProfileMap) : StoreState :=
  some (.valid profiles)

/-- JavaScript `profiles[profileName] = profile`: replace the record in
place when the key exists, append it otherwise. -/
def setKey (m : ProfileMap) (k : String) (v : AIProfile) : ProfileMap :=
  if m.any (fun e => e.1 == k) then m.map (fun e => if e.1 = k then (k, v) else e)
  else m ++ [(k, v)]

/-- First stored record under a name. -/
def lookupKey : ProfileMap → String → Option AIProfile
  | [], _ => none
  | e :: rest, k => if e.1 = k then some e.2 else lookupKey rest k

/-- Upsert (`saveProfile`, lines 88-96): read the mapping, update one key, write
everything back. -/
def saveProfile (st : StoreState) (profileName : String) (profile : AIProfile) : StoreState :=
  saveProfiles st (setKey (getProfiles st) profileName profile)

/-- The record `createProfile` builds (lines 132-140): empty `configs` and
empty text fields; `description || aiTool + ' configuration'` defaults the
empty description. -/
def freshProfile (name description : String) (aiTool : AIToolType) : AIProfile :=
  { name := name
    description := if description = "" then toolName aiTool ++ " configuration" else description
    configs := []
    ignorePatterns := ""
    rules := ""
    memoryBank := ""
    aiTool := aiTool }

/-- Creation (`createProfile`, lines 127-143) with a workspace open: build the fresh
record and store it under the name. -/
def createProfile (st : StoreState) (name description : String) (aiTool : AIToolType) : StoreState :=
  saveProfile st name (freshProfile name description aiTool)

/- ### Spec-side definitions (for refinement comparisons only) -/

/-- Modelled from the spec sentence behind the double-switch claim: after
switching to `profileB` the directory contains *exactly* `profileB.files`
plus the reserved files for `profileB` — every other path holds nothing.
This is the spec's words, to be compared with what `switchProfile`
actually leaves. -/
def specExactPost (profB : AIProfile) (p : FsPath) : Option String :=
  match reservedWrite profB p with
  | some c => some c
  | none => lastWrite profB.configs p

/-- The write targets of the writing loop (line 177: `path.join(ws,
fileName)` for every key of `profile.configs`), as absolute paths under
the workspace root `ws`. -/
def switchWriteTargets (ws : FsPath) (prof : AIProfile) : List FsPath :=
  prof.configs.map (fun e => joinAbs ws e.1)

/-- The union of all catalogued footprint paths read literally as a set of
paths (the claim vocabulary for "in the union of all catalogued tool
footprints"). -/
def footprintUnionPaths : List FsPath :=
  footprintUnionStrings.filterMap joinRel

/- ### Concrete fixtures used by the counterexamples and witnesses -/

/-- A profile that declares a file outside every catalogued footprint and
materializes `.rules`. -/
def profileA_c1 : AIProfile :=
  { name := "A", description := "", configs := [("notes.txt", "keep")],
    ignorePatterns := "", rules := "r", memoryBank := "", aiTool := .cursor }

/-- A profile that declares no files and leaves every text field empty. -/
def profileB_c1 : AIProfile :=
  { name := "B", description := "", configs := [],
    ignorePatterns := "", rules := "", memoryBank := "", aiTool := .windsurf }

/-- A profile with no declared files and no text blobs. -/
def emptyProfile : AIProfile :=
  { name := "empty", description := "", configs := [],
    ignorePatterns := "", rules := "", memoryBank := "", aiTool := .other }

/-- A profile whose single config key climbs out of the workspace. -/
def escProfile_c6 : AIProfile :=
  { name := "esc", description := "", configs := [("../evil", "boom")],
    ignorePatterns := "", rules := "", memoryBank := "", aiTool := .other }

/-- A stored profile with non-empty file contents and text blobs, used to
show that `createProfile` under an existing name discards them. -/
def oldProfile_c10 : AIProfile :=
  { name := "n", description := "old description",
    configs := [(".cursorrules", "old content")],
    ignorePatterns := "node_modules", rules := "old rules", memoryBank := "old bank",
    aiTool := .cursor }

/- ### Lookup lemmas for the primitive filesystem operations -/

theorem lookupFS_writePath_self (fs : FS) (p : FsPath) (c : String) :
    lookupFS (writePath fs p c) p = some c := by
  simp [writePath, lookupFS]

theorem lookupFS_writePath_ne (fs : FS) (p q : FsPath) (c : String) (h : p ≠ q) :
    lookupFS (writePath fs p c) q = lookupFS fs q := by
  simp [writePath, lookupFS, h]

theorem lookupFS_filter_keep (fs : FS) (f : FsPath × String → Bool) (p : FsPath)
    (hkeep : ∀ c, f (p, c) = true) : lookupFS (fs.filter f) p = lookupFS fs p := by
  induction fs with
  | nil => rfl
  | cons e rest ih =>
    rw [List.filter_cons]
    by_cases hf : f e = true
    · by_cases hp : e.1 = p
      · simp [hf, lookupFS, hp]
      · simp [hf, lookupFS, hp, ih]
    · have hne : e.1 ≠ p := by
        intro h
        exact hf (by rw [show e = (p, e.2) from by rw [← h]]; exact hkeep e.2)
      simp [hf, lookupFS, hne, ih]

theorem lookupFS_filter_drop (fs : FS) (f : FsPath × String → Bool) (p : FsPath)
    (hdrop : ∀ c, f (p, c) = false) : lookupFS (fs.filter f) p = none := by
  induction fs with
  | nil => rfl
  | cons e rest ih =>
    rw [List.filter_cons]
    by_cases hf : f e = true
    · have hne : e.1 ≠ p := by
        intro h
        have : f (p, e.2) = true := by rw [show (p, e.2) = e from by rw [← h]]; exact hf
        rw [hdrop e.2] at this
        exact Bool.false_ne_true this
      simp [hf, lookupFS, hne, ih]
    · simp [hf, ih]

theorem lookupFS_removePath (fs : FS) (q p : FsPath) :
    lookupFS (removePath fs q) p = if q <+: p then none else lookupFS fs p := by
  by_cases hp : q <+: p
  · rw [if_pos hp]
    exact lookupFS_filter_drop fs _ p (fun c => by simp [hp])
  · rw [if_neg hp]
    exact lookupFS_filter_keep fs _ p (fun c => by simp [hp])

theorem lookupFS_eq_none_of_not_exists (fs : FS) (q p : FsPath)
    (hex : pathExistsIn fs q = false) (hp : q <+: p) : lookupFS fs p = none := by
  induction fs with
  | nil => rfl
  | cons e rest ih =>
    simp only [pathExistsIn, List.any_cons, Bool.or_eq_false_iff] at hex
    obtain ⟨h1, h2⟩ := hex
    have hne : e.1 ≠ p := by
      intro h
      rw [h] at h1
      simp [hp] at h1
    simp only [lookupFS, hne, if_false]
    exact ih h2

theorem clearStep_lookup (fs : FS) (cf : String) (p : FsPath) :
    lookupFS (clearStep fs cf) p = if coversB cf p then none else lookupFS fs p := by
  unfold clearStep coversB
  cases hj : joinRel cf with
  | none => simp
  | some q =>
    by_cases hex : pathExistsIn fs q = true
    · simp only [hex, if_true]
      rw [lookupFS_removePath]
      by_cases hp : q <+: p <;> simp [hp]
    · have hex' : pathExistsIn fs q = false := by
        cases h : pathExistsIn fs q
        · rfl
        · exact absurd h hex
      simp only [hex', Bool.false_eq_true, if_false]
      by_cases hp : q <+: p
      · simp [hp, lookupFS_eq_none_of_not_exists fs q p hex' hp]
      · simp [hp]

theorem clearConfigFiles_lookup (L : List String) (fs : FS) (p : FsPath) :
    lookupFS (clearConfigFiles fs L) p =
      if L.any (fun cf => coversB cf p) then none else lookupFS fs p := by
  induction L generalizing fs with
  | nil => simp [clearConfigFiles]
  | cons cf rest ih =>
    rw [clearConfigFiles, ih]
    by_cases hc : coversB cf p = true
    · simp [hc, clearStep_lookup]
    · have hc' : coversB cf p = false := by
        cases h : coversB cf p
        · rfl
        · exact absurd h hc
      by_cases hr : rest.any (fun cf => coversB cf p) = true
      · simp [hc', hr]
      · have hr' : rest.any (fun cf => coversB cf p) = false := by
          cases h : rest.any (fun cf => coversB cf p)
          · rfl
          · exact absurd h hr
        simp [hc', hr', clearStep_lookup]

theorem writeConfigs_lookup (l : List (String × String)) (fs : FS) (p : FsPath) :
    lookupFS (writeConfigs fs l) p =
      match lastWrite l p with
      | some c => some c
      | none => lookupFS fs p := by
  induction l generalizing fs with
  | nil => simp [writeConfigs, lastWrite]
  | cons e rest ih =>
    rw [writeConfigs, ih]
    cases hr : lastWrite rest p with
    | some c => simp [lastWrite, hr]
    | none =>
      simp only [lastWrite, hr]
      unfold writeConfig
      cases hj : joinRel e.1 with
      | none => simp [hj]
      | some k =>
        by_cases hk : k = p
        · subst hk
          simp [hj, lookupFS_writePath_self]
        · have : ¬ (some k = some p) := by simp [hk]
          simp [hj, this, lookupFS_writePath_ne fs k p e.2 hk]

theorem condWrite_lookup (fs : FS) (b : Bool) (tgt : FsPath) (c : String) (p : FsPath) :
    lookupFS (condWrite fs b tgt c) p =
      if b = true ∧ p = tgt then some c else lookupFS fs p := by
  unfold condWrite
  by_cases hb : b = true
  · by_cases hp : p = tgt
    · subst hp
      simp [hb, lookupFS_writePath_self]
    · simp [hb, hp, lookupFS_writePath_ne fs tgt p c (fun h => hp h.symm)]
  · simp [hb]

theorem writeReserved_lookup (fs : FS) (prof : AIProfile) (p : FsPath) :
    lookupFS (writeReserved fs prof) p = (reservedWrite prof p).or (lookupFS fs p) := by
  rw [writeReserved, condWrite_lookup, condWrite_lookup, condWrite_lookup]
  unfold reservedWrite
  split_ifs <;> simp_all [Option.or]

theorem applyProfile_lookup (fs : FS) (prof : AIProfile) (p : FsPath) :
    lookupFS (applyProfile fs prof) p =
      (writtenBy prof p).or (if coveredBool p = true then none else lookupFS fs p) := by
  rw [applyProfile, writeReserved_lookup, writeConfigs_lookup, clearConfigFiles_lookup]
  unfold writtenBy coveredBool
  cases hres : reservedWrite prof p <;> cases hlw : lastWrite prof.configs p <;>
    simp [Option.or, hres, hlw]

theorem writeEntries_lookup (M : List (FsPath × String)) (fs : FS) (p : FsPath) :
    lookupFS (writeEntries fs M) p = (lastEntry M p).or (lookupFS fs p) := by
  induction M generalizing fs with
  | nil => simp [writeEntries, lastEntry, Option.or]
  | cons e rest ih =>
    rw [writeEntries, ih]
    cases hr : lastEntry rest p with
    | some c => simp [lastEntry, hr, Option.or]
    | none =>
      by_cases hp : e.1 = p
      · subst hp
        simp [lastEntry, hr, Option.or, lookupFS_writePath_self]
      · simp [lastEntry, hr, Option.or, hp, lookupFS_writePath_ne fs e.1 p e.2 hp]

theorem lastEntry_eq_none (M : List (FsPath × String)) (p : FsPath)
    (h : ∀ e ∈ M, e.1 ≠ p) : lastEntry M p = none := by
  induction M with
  | nil => rfl
  | cons e rest ih =>
    have he : e.1 ≠ p := h e (List.mem_cons_self e rest)
    rw [lastEntry, ih (fun x hx => h x (List.mem_cons_of_mem e hx))]
    simp [he]

theorem copyTree_frame (fs : FS) (src dest p : FsPath) (h : ¬ dest <+: p) :
    lookupFS (copyTree fs src dest) p = lookupFS fs p := by
  rw [copyTree, writeEntries_lookup]
  rw [lastEntry_eq_none]
  · simp [Option.or]
  · intro e he hkey
    obtain ⟨e0, _, he0⟩ := List.mem_map.mp he
    apply h
    rw [← hkey, ← he0]
    exact List.prefix_append dest _

theorem backupStep_frame (fs : FS) (ts : String) (cf : String) (p : FsPath)
    (h : ¬ [".ai-config-backups"] <+: p) :
    lookupFS (backupStep fs ts cf) p = lookupFS fs p := by
  unfold backupStep
  cases hj : joinRel cf with
  | none => rfl
  | some q =>
    by_cases hex : pathExistsIn fs q = true
    · simp only [hex, if_true]
      apply copyTree_frame
      intro hpre
      apply h
      calc [".ai-config-backups"] <+: backupSeg ts := ⟨["backup-" ++ ts], rfl⟩
        _ <+: backupSeg ts ++ q := List.prefix_append _ _
        _ <+: p := hpre
    · simp [hex]

theorem backupFiles_frame (L : List String) (fs : FS) (ts : String) (p : FsPath)
    (h : ¬ [".ai-config-backups"] <+: p) :
    lookupFS (backupFiles fs ts L) p = lookupFS fs p := by
  induction L generalizing fs with
  | nil => rfl
  | cons cf rest ih =>
    rw [backupFiles, ih, backupStep_frame fs ts cf p h]

theorem foldl_select_append (f : AIToolType → Bool) (L acc : List AIToolType) :
    L.foldl (fun acc t => if f t then acc ++ [t] else acc) acc = acc ++ L.filter f := by
  induction L generalizing acc with
  | nil => simp
  | cons t rest ih =>
    by_cases hf : f t = true
    · simp [List.filter_cons, hf, ih]
    · simp [List.filter_cons, hf, ih]

theorem detect_eq_filter (fs : FS) :
    detectAIConfigurations fs =
      allTools.filter (fun t => (CONFIG_MAPPINGS t).any (globMatches fs)) := by
  rw [detectAIConfigurations, foldl_select_append]
  rfl

theorem mem_allTools (t : AIToolType) : t ∈ allTools := by
  cases t <;> simp [allTools]

theorem lookupKey_map_set (m : ProfileMap) (k : String) (v : AIProfile)
    (h : m.any (fun e => e.1 == k) = true) :
    lookupKey (m.map fun e => if e.1 = k then (k, v) else e) k = some v := by
  induction m with
  | nil => simp [List.any_nil] at h
  | cons e rest ih =>
    by_cases he : e.1 = k
    · simp [lookupKey, he]
    · have hrest : rest.any (fun e => e.1 == k) = true := by
        simp only [List.any_cons, Bool.or_eq_true] at h
        rcases h with h | h
        · exact absurd (by simpa using h) he
        · exact h
      simp [lookupKey, he, ih hrest]

theorem lookupKey_append_single (m : ProfileMap) (k : String) (v : AIProfile)
    (h : m.any (fun e => e.1 == k) = false) :
    lookupKey (m ++ [(k, v)]) k = some v := by
  induction m with
  | nil => simp [lookupKey]
  | cons e rest ih =>
    simp only [List.any_cons, Bool.or_eq_false_iff] at h
    obtain ⟨h1, h2⟩ := h
    have he : e.1 ≠ k := by simpa using h1
    simp [lookupKey, he, ih h2]

theorem lookupKey_setKey_self (m : ProfileMap) (k : String) (v : AIProfile) :
    lookupKey (setKey m k v) k = some v := by
  unfold setKey
  by_cases hmem : m.any (fun e => e.1 == k) = true
  · simp only [hmem, if_true]
    exact lookupKey_map_set m k v hmem
  · have hmem' : m.any (fun e => e.1 == k) = false := by
      cases h : m.any (fun e => e.1 == k)
      · rfl
      · exact absurd h hmem
    simp only [hmem', Bool.false_eq_true, if_false]
    exact lookupKey_append_single m k v hmem'

theorem foldlNorm_no_dotdot (l : List String) (acc : FsPath) (h : ".." ∉ l) :
    l.foldl (fun acc s => if s = ".." then acc.dropLast else acc ++ [s]) acc = acc ++ l := by
  induction l generalizing acc with
  | nil => simp
  | cons s rest ih =>
    have hs : s ≠ ".." := fun hh => h (hh ▸ List.mem_cons_self s rest)
    have hrest : ".." ∉ rest := fun hh => h (List.mem_cons_of_mem s hh)
    rw [List.foldl_cons, if_neg (fun hh => hs hh), ih _ hrest]
    simp

theorem joinAbs_under (ws : FsPath) (name : String)
    (hws : ".." ∉ ws) (hn : ".." ∉ splitSegs name) :
    ws <+: joinAbs ws name := by
  rw [joinAbs, foldlNorm_no_dotdot]
  · rw [List.nil_append]
    exact List.prefix_append ws _
  · intro hmem
    rcases List.mem_append.mp hmem with h | h
    · exact hws h
    · exact hn h

theorem restrictOut_writeEntries (M : List (FsPath × String)) (fs : FS)
    (h : ∀ e ∈ M, [".ai-config-backups"] <+: e.1) :
    restrictOut (writeEntries fs M) = restrictOut fs := by
  induction M generalizing fs with
  | nil => rfl
  | cons e rest ih =>
    rw [writeEntries, ih _ (fun x hx => h x (List.mem_cons_of_mem e hx))]
    have he : [".ai-config-backups"] <+: e.1 := h e (List.mem_cons_self e rest)
    simp [restrictOut, writePath, List.filter_cons, he]

theorem restrictOut_backupStep (fs : FS) (ts : String) (cf : String) :
    restrictOut (backupStep fs ts cf) = restrictOut fs := by
  unfold backupStep
  cases hj : joinRel cf with
  | none => rfl
  | some q =>
    by_cases hex : pathExistsIn fs q = true
    · simp only [hex, if_true]
      rw [copyTree, restrictOut_writeEntries]
      intro e he
      obtain ⟨e0, _, he0⟩ := List.mem_map.mp he
      rw [← he0]
      calc [".ai-config-backups"] <+: backupSeg ts := ⟨["backup-" ++ ts], rfl⟩
        _ <+: (backupSeg ts ++ q) ++ e0.1.drop q.length := by
          rw [List.append_assoc]
          exact List.prefix_append _ _
    · simp [hex]

theorem restrictOut_backupFiles (L : List String) (fs : FS) (ts : String) :
    restrictOut (backupFiles fs ts L) = restrictOut fs := by
  induction L generalizing fs with
  | nil => rfl
  | cons cf rest ih => rw [backupFiles, ih, restrictOut_backupStep]

theorem lookupFS_restrictOut (fs : FS) (p : FsPath)
    (h : ¬ [".ai-config-backups"] <+: p) :
    lookupFS (restrictOut fs) p = lookupFS fs p := by
  apply lookupFS_filter_keep
  intro c
  simp [h]

theorem filter_src_restrictOut (fs : FS) (q : FsPath)
    (h : ∀ k : FsPath, q <+: k → ¬ [".ai-config-backups"] <+: k) :
    fs.filter (fun e => decide (q <+: e.1)) =
      (restrictOut fs).filter (fun e => decide (q <+: e.1)) := by
  unfold restrictOut
  rw [List.filter_filter]
  apply List.filter_congr
  intro e _
  by_cases hq : q <+: e.1
  · have hnb : ¬ [".ai-config-backups"] <+: e.1 := h e.1 hq
    simp [hq, hnb]
  · simp [hq]

theorem pathExistsIn_restrictOut (fs : FS) (q : FsPath)
    (h : ∀ k : FsPath, q <+: k → ¬ [".ai-config-backups"] <+: k) :
    pathExistsIn (restrictOut fs) q = pathExistsIn fs q := by
  unfold pathExistsIn
  have h1 : (restrictOut fs).any (fun e => decide (q <+: e.1)) = true ↔
      fs.any (fun e => decide (q <+: e.1)) = true := by
    simp only [List.any_eq_true]
    constructor
    · rintro ⟨e, he, hp⟩
      exact ⟨e, (List.filter_sublist fs).subset he, hp⟩
    · rintro ⟨e, he, hp⟩
      refine ⟨e, List.mem_filter.mpr ⟨he, ?_⟩, hp⟩
      simp [h e.1 (by simpa using hp)]
  cases hB : fs.any (fun e => decide (q <+: e.1)) with
  | false =>
    cases hA : (restrictOut fs).any (fun e => decide (q <+: e.1)) with
    | false => rfl
    | true => rw [h1.mp hA] at hB; exact absurd hB (by simp)
  | true => exact h1.mpr hB

theorem lastEntry_some_mem (M : List (FsPath × String)) (p : FsPath) (v : String)
    (h : lastEntry M p = some v) : (p, v) ∈ M := by
  induction M with
  | nil => exact absurd h (by simp [lastEntry])
  | cons e rest ih =>
    rw [lastEntry] at h
    cases hr : lastEntry rest p with
    | some c =>
      rw [hr] at h
      exact List.mem_cons_of_mem e (ih (hr.trans h))
    | none =>
      rw [hr] at h
      by_cases he : e.1 = p
      · rw [if_pos he] at h
        have : e = (p, v) := by
          cases e
          simp_all
        rw [← this]
        exact List.mem_cons_self _ _
      · rw [if_neg he] at h
        exact absurd h (by simp)

theorem lastEntry_ne_none (M : List (FsPath × String)) (p : FsPath) (x : FsPath × String)
    (hx : x ∈ M) (hxp : x.1 = p) : lastEntry M p ≠ none := by
  induction M with
  | nil => simp at hx
  | cons y ys ihy =>
    rw [lastEntry]
    cases hy : lastEntry ys p with
    | some _ => simp
    | none =>
      rcases List.mem_cons.mp hx with hxy | hxys
      · subst hxy
        simp [hxp]
      · exact absurd hy (ihy hxys)

theorem lastEntry_all_eq (M : List (FsPath × String)) (p : FsPath) (c : String)
    (hex : ∃ e ∈ M, e.1 = p) (hall : ∀ e ∈ M, e.1 = p → e.2 = c) :
    lastEntry M p = some c := by
  induction M with
  | nil => simp at hex
  | cons e rest ih =>
    rw [lastEntry]
    cases hr : lastEntry rest p with
    | some v =>
      have hmem := lastEntry_some_mem rest p v hr
      have := hall (p, v) (List.mem_cons_of_mem e hmem) rfl
      simp_all
    | none =>
      rcases hex with ⟨x, hx, hxp⟩
      rcases List.mem_cons.mp hx with hxe | hxrest
      · subst hxe
        rw [if_pos hxp]
        rw [hall x (List.mem_cons_self x rest) hxp]
      · exact absurd hr (lastEntry_ne_none rest p x hxrest hxp)

theorem lookupFS_some_mem (fs : FS) (q : FsPath) (c : String)
    (h : lookupFS fs q = some c) : (q, c) ∈ fs := by
  induction fs with
  | nil => exact absurd h (by simp [lookupFS])
  | cons e rest ih =>
    rw [lookupFS] at h
    by_cases he : e.1 = q
    · rw [if_pos he] at h
      have : e = (q, c) := by
        cases e
        simp_all
      rw [← this]
      exact List.mem_cons_self _ _
    · rw [if_neg he] at h
      exact List.mem_cons_of_mem e (ih h)

theorem keysNodup_content (fs : FS) (q : FsPath) (c : String)
    (hnd : keysNodup fs) (hl : lookupFS fs q = some c) :
    ∀ e ∈ fs, e.1 = q → e.2 = c := by
  induction fs with
  | nil => simp
  | cons e rest ih =>
    rw [keysNodup, List.map_cons, List.nodup_cons] at hnd
    obtain ⟨hnmem, hnd'⟩ := hnd
    rw [lookupFS] at hl
    intro x hx hxq
    by_cases he : e.1 = q
    · rw [if_pos he] at hl
      rcases List.mem_cons.mp hx with hxe | hxrest
      · subst hxe
        simpa using hl
      · exfalso
        apply hnmem
        rw [he, ← hxq]
        exact List.mem_map_of_mem Prod.fst hxrest
    · rw [if_neg he] at hl
      rcases List.mem_cons.mp hx with hxe | hxrest
      · subst hxe
        exact absurd hxq he
      · exact ih hnd' hl x hxrest hxq

theorem lastEntry_copy (l : FS) (src B q : FsPath)
    (hall : ∀ e ∈ l, src <+: e.1) :
    lastEntry (l.map fun e => ((B ++ src) ++ e.1.drop src.length, e.2)) (B ++ q) =
      lastEntry l q := by
  induction l with
  | nil => rfl
  | cons e rest ih =>
    have hkey : (B ++ src) ++ e.1.drop src.length = B ++ e.1 := by
      obtain ⟨t, ht⟩ := hall e (List.mem_cons_self e rest)
      rw [← ht, List.drop_left, List.append_assoc]
    rw [List.map_cons, lastEntry, lastEntry,
      ih (fun x hx => hall x (List.mem_cons_of_mem e hx))]
    cases lastEntry rest q with
    | some c => rfl
    | none =>
      have hiff : ((B ++ src) ++ e.1.drop src.length = B ++ q) ↔ e.1 = q := by
        rw [hkey]
        exact ⟨fun h => List.append_cancel_left h, fun h => by rw [h]⟩
      by_cases hq : e.1 = q
      · rw [if_pos hq, if_pos (hiff.mpr hq)]
      · rw [if_neg hq, if_neg (fun h => hq (hiff.mp h))]

theorem headOK_not_backup (cf : String) (q : FsPath) (hok : headOKB cf = true)
    (hj : joinRel cf = some q) :
    ∀ k : FsPath, q <+: k → ¬ [".ai-config-backups"] <+: k := by
  unfold headOKB at hok
  rw [hj] at hok
  cases q with
  | nil => simp at hok
  | cons s t =>
    have hs : s ≠ ".ai-config-backups" := by simpa using hok
    intro k hqk hbk
    cases k with
    | nil => simp [List.prefix_nil] at hqk
    | cons a b =>
      have h1 := (List.cons_prefix_cons.mp hqk).1
      have h2 := (List.cons_prefix_cons.mp hbk).1
      exact hs (h1.trans h2.symm)

theorem backupStep_write (fs0 fs : FS) (ts cf : String) (q qq : FsPath) (c : String)
    (hj : joinRel cf = some qq) (hok : headOKB cf = true) (hpre : qq <+: q)
    (hres : restrictOut fs = restrictOut fs0)
    (hnd : keysNodup (restrictOut fs0))
    (hlk : lookupFS (restrictOut fs0) q = some c) :
    lookupFS (backupStep fs ts cf) (backupSeg ts ++ q) = some c := by
  have hq_nb := headOK_not_backup cf qq hok hj
  unfold backupStep
  rw [hj]
  have hmemr : (q, c) ∈ restrictOut fs := by
    rw [hres]
    exact lookupFS_some_mem _ _ _ hlk
  have hmem : (q, c) ∈ fs := (List.filter_sublist fs).subset hmemr
  have hguard : pathExistsIn fs qq = true := by
    unfold pathExistsIn
    rw [List.any_eq_true]
    exact ⟨(q, c), hmem, by simpa using hpre⟩
  simp only [hguard, if_true]
  rw [copyTree, writeEntries_lookup, filter_src_restrictOut fs qq hq_nb, hres]
  have hall : ∀ e ∈ (restrictOut fs0).filter (fun e => decide (qq <+: e.1)), qq <+: e.1 := by
    intro e he
    simpa using List.of_mem_filter he
  rw [lastEntry_copy _ qq (backupSeg ts) q hall]
  rw [lastEntry_all_eq _ q c ?hex ?hall2]
  · rfl
  case hex =>
    refine ⟨(q, c), List.mem_filter.mpr ⟨lookupFS_some_mem _ _ _ hlk, by simpa using hpre⟩, rfl⟩
  case hall2 =>
    intro e he hep
    exact keysNodup_content (restrictOut fs0) q c hnd hlk e ((List.filter_sublist _).subset he) hep

theorem backupStep_keep (fs0 fs : FS) (ts cf : String) (q : FsPath) (c : String)
    (hqnb : ¬ [".ai-config-backups"] <+: q)
    (hres : restrictOut fs = restrictOut fs0)
    (hnd : keysNodup (restrictOut fs0))
    (hlk : lookupFS (restrictOut fs0) q = some c)
    (hcur : lookupFS fs (backupSeg ts ++ q) = some c) :
    lookupFS (backupStep fs ts cf) (backupSeg ts ++ q) = some c := by
  unfold backupStep
  cases hj : joinRel cf with
  | none => exact hcur
  | some qq =>
    by_cases hex : pathExistsIn fs qq = true
    · simp only [hex, if_true]
      rw [copyTree, writeEntries_lookup]
      cases hle : lastEntry ((fs.filter (fun e => decide (qq <+: e.1))).map
          (fun e => ((backupSeg ts ++ qq) ++ e.1.drop qq.length, e.2))) (backupSeg ts ++ q) with
      | none => rw [hcur]; rfl
      | some v =>
        have hmem := lastEntry_some_mem _ _ _ hle
        obtain ⟨e0, he0mem, he0eq⟩ := List.mem_map.mp hmem
        have hsrc : qq <+: e0.1 := by simpa using List.of_mem_filter he0mem
        obtain ⟨t, ht⟩ := hsrc
        have hkey : (backupSeg ts ++ qq) ++ e0.1.drop qq.length = backupSeg ts ++ e0.1 := by
          rw [← ht, List.drop_left, List.append_assoc]
        have he1 : e0.1 = q := by
          have hfst := congrArg Prod.fst he0eq
          simp only at hfst
          rw [hkey] at hfst
          exact List.append_cancel_left hfst
        have hv : e0.2 = v := congrArg Prod.snd he0eq
        have he0fs : e0 ∈ fs := (List.filter_sublist fs).subset he0mem
        have he0r : e0 ∈ restrictOut fs := by
          refine List.mem_filter.mpr ⟨he0fs, ?_⟩
          simp [he1, hqnb]
        rw [hres] at he0r
        have hc := keysNodup_content (restrictOut fs0) q c hnd hlk e0 he0r he1
        rw [← hv, hc]
        rfl
    · have hex' : pathExistsIn fs qq = false := by
        cases h : pathExistsIn fs qq
        · rfl
        · exact absurd h hex
      simp only [hex', Bool.false_eq_true, if_false]
      exact hcur

theorem backupFiles_keep (L : List String) (fs0 : FS) (ts : String) (q : FsPath) (c : String)
    (hqnb : ¬ [".ai-config-backups"] <+: q)
    (hnd : keysNodup (restrictOut fs0))
    (hlk : lookupFS (restrictOut fs0) q = some c) :
    ∀ fs : FS, restrictOut fs = restrictOut fs0 →
      lookupFS fs (backupSeg ts ++ q) = some c →
      lookupFS (backupFiles fs ts L) (backupSeg ts ++ q) = some c := by
  induction L with
  | nil => exact fun fs _ hcur => hcur
  | cons cf rest ih =>
    intro fs hres hcur
    rw [backupFiles]
    exact ih (backupStep fs ts cf) ((restrictOut_backupStep fs ts cf).trans hres)
      (backupStep_keep fs0 fs ts cf q c hqnb hres hnd hlk hcur)

theorem backupFiles_write (L : List String) (fs0 : FS) (ts cf : String)
    (q qq : FsPath) (c : String)
    (hj : joinRel cf = some qq) (hpre : qq <+: q)
    (hqnb : ¬ [".ai-config-backups"] <+: q)
    (hnd : keysNodup (restrictOut fs0))
    (hlk : lookupFS (restrictOut fs0) q = some c) :
    cf ∈ L → (∀ x ∈ L, headOKB x = true) →
    ∀ fs : FS, restrictOut fs = restrictOut fs0 →
      lookupFS (backupFiles fs ts L) (backupSeg ts ++ q) = some c := by
  induction L with
  | nil =>
    intro hcf
    simp at hcf
  | cons cf' rest ih =>
    intro hcf hok fs hres
    rw [backupFiles]
    by_cases hcc : cf' = cf
    · subst hcc
      exact backupFiles_keep rest fs0 ts q c hqnb hnd hlk (backupStep fs ts cf')
        ((restrictOut_backupStep fs ts cf').trans hres)
        (backupStep_write fs0 fs ts cf' q qq c hj (hok cf' (List.mem_cons_self _ _)) hpre hres
          hnd hlk)
    · have hcfr : cf ∈ rest := by
        rcases List.mem_cons.mp hcf with h | h
        · exact absurd h.symm hcc
        · exact h
      exact ih hcfr (fun x hx => hok x (List.mem_cons_of_mem _ hx)) (backupStep fs ts cf')
        ((restrictOut_backupStep fs ts cf').trans hres)

theorem footprint_heads_ok : footprintUnionStrings.all headOKB = true := by decide

theorem keysNodup_restrictOut (fs : FS) (h : keysNodup fs) : keysNodup (restrictOut fs) :=
  ((List.filter_sublist fs).map Prod.fst).nodup h

/- ### Claim theorems -/

/-- C2, counterexample: the claim says a malformed store document makes the
load fail with `CorruptStoreError`, but `getProfiles` (lines 80-86) wraps
`fs.readJSON` in a `catch` that returns the empty mapping, so a present but
unparseable document is silently discarded instead of raising. -/
theorem C2_malformed_returns_empty :
    getProfiles (some (.malformed "this is not the profile mapping")) = [] := rfl

/-- C2, amended: for every malformed document content, the store's load
operation returns the empty mapping (silently discarding the document)
rather than failing. -/
theorem C2_load_discards_malformed (raw : String) :
    getProfiles (some (.malformed raw)) = [] := rfl

/-- C5: `detectAIConfigurations` contains a tool exactly when at least one
pattern of that tool's footprint has a glob match (i.e. exists) under the
directory — the inner loop stops at the first existing pattern
(`List.any` short-circuits exactly like the `break` on line 117) — and on
a directory holding only a `.cursorrules` file (any content) the result is
exactly `[cursor]`. -/
theorem C5_detect_characterization (fs : FS) (c : String) :
    (∀ t : AIToolType, t ∈ detectAIConfigurations fs ↔
      ∃ cf ∈ CONFIG_MAPPINGS t, globMatches fs cf = true) ∧
    detectAIConfigurations [([".cursorrules"], c)] = [AIToolType.cursor] := by
  constructor
  · intro t
    rw [detect_eq_filter, List.mem_filter]
    simp [mem_allTools t, List.any_eq_true]
  · rfl

/-- C6, counterexample: the profile key `../evil` is joined by
`path.join(workspace, fileName)` (line 177) without any validation, and the
resulting write target `home/evil` lies outside the workspace
`home/ws` — the switch writes outside the target directory. -/
theorem C6_dotdot_escapes :
    switchWriteTargets ["home", "ws"] escProfile_c6 = [["home", "evil"]] ∧
      ¬ ["home", "ws"] <+: ["home", "evil"] := by
  constructor
  · rfl
  · decide

/-- C6, amended: a config key without `..` segments always resolves under
the target directory (a leading `/` is not honoured as an absolute path by
`path.join`, so such keys are rendered harmless), but keys with `..`
segments are neither rejected nor rendered harmless and can escape. -/
theorem C6_no_dotdot_stays_inside (ws : FsPath) (name : String)
    (hws : ".." ∉ ws) (hname : ".." ∉ splitSegs name) :
    ws <+: joinAbs ws name :=
  joinAbs_under ws name hws hname

/-- C6, witness for the amended theorem at a concrete workspace and key. -/
theorem C6_no_dotdot_stays_inside_witness :
    ".." ∉ (["home", "ws"] : FsPath) ∧ ".." ∉ splitSegs ".config/sub/rules.md" ∧
      ["home", "ws"] <+: joinAbs ["home", "ws"] ".config/sub/rules.md" :=
  ⟨by decide, by decide, C6_no_dotdot_stays_inside ["home", "ws"] ".config/sub/rules.md"
    (by decide) (by decide)⟩

/-- C8: for every persisted store state — a parseable document, a present
but malformed one, or an absent file — loading the profile mapping
(lines 80-86) and immediately saving it back (lines 98-104) leaves the
document's observable content, the mapping from profile names to profile
records that any reader obtains from the store, unchanged.  (For a
parseable document the re-saved document is the same mapping verbatim;
for a malformed or absent one the re-saved document presents the same
empty mapping the original presented, the discarding of the malformed raw
text being C2's finding.) -/
theorem C8_save_load_roundtrip (st : StoreState) :
    getProfiles (saveProfiles st (getProfiles st)) = getProfiles st := rfl

/-- C10: `createProfile` under a name that already has a stored record
replaces it with the fresh record of lines 132-140 — empty `configs` and
empty `ignorePatterns`/`rules`/`memoryBank` — so the previously stored
contents are discarded. -/
theorem C10_create_overwrites (st : StoreState) (name desc : String) (tool : AIToolType)
    (old : AIProfile) (_h_old : lookupKey (getProfiles st) name = some old) :
    lookupKey (getProfiles (createProfile st name desc tool)) name =
        some (freshProfile name desc tool) ∧
      (freshProfile name desc tool).configs = [] ∧
      (freshProfile name desc tool).rules = "" ∧
      (freshProfile name desc tool).ignorePatterns = "" ∧
      (freshProfile name desc tool).memoryBank = "" := by
  refine ⟨?_, rfl, rfl, rfl, rfl⟩
  unfold createProfile saveProfile saveProfiles
  exact lookupKey_setKey_self (getProfiles st) name (freshProfile name desc tool)

/-- C10, witness: overwriting the stored record `oldProfile_c10`, whose
file contents and text blobs are non-empty, with a fresh `windsurf`
profile. -/
theorem C10_create_overwrites_witness :
    lookupKey (getProfiles (some (.valid [("n", oldProfile_c10)]))) "n" = some oldProfile_c10 ∧
      lookupKey (getProfiles (createProfile (some (.valid [("n", oldProfile_c10)])) "n" "d"
        .windsurf)) "n" = some (freshProfile "n" "d" .windsurf) :=
  ⟨rfl, (C10_create_overwrites (some (.valid [("n", oldProfile_c10)])) "n" "d" .windsurf
    oldProfile_c10 rfl).1⟩

/-- C1, counterexample: after `switchTo(dir, A)` then `switchTo(dir, B)`
(backup disabled) the directory still holds `notes.txt` — a file declared
by A whose path is in no catalogued footprint — and `.rules` materialized
from A's rules text, although B declares no files and its text fields are
empty, so the spec-side post-state `specExactPost B` demands both paths be
absent.  The clearing loop (lines 165-173) only removes catalogued
footprint paths and never `.rules`, `.aiignore`, or undeclared files. -/
theorem C1_stale_files_survive :
    lookupFS (switchProfile false "" (switchProfile false "" [] profileA_c1) profileB_c1)
        ["notes.txt"] = some "keep" ∧
      lookupFS (switchProfile false "" (switchProfile false "" [] profileA_c1) profileB_c1)
        [".rules"] = some "r" ∧
      specExactPost profileB_c1 ["notes.txt"] = none ∧
      specExactPost profileB_c1 [".rules"] = none := by
  refine ⟨?_, ?_, rfl, rfl⟩ <;> rfl

/-- C1, amended: after the second switch the directory holds exactly B's
writes on the paths B writes; every path covered by a catalogued footprint
that B does not write is absent; and every other path — including A's
files outside all footprints and stale `.rules`/`.aiignore` files —
retains its content from after the first switch. -/
theorem C1_double_switch_postdirectory (fs : FS) (A B : AIProfile) (p : FsPath) :
    lookupFS (switchProfile false "" (switchProfile false "" fs A) B) p =
      (writtenBy B p).or
        (if coveredBool p = true then none
         else lookupFS (switchProfile false "" fs A) p) :=
  applyProfile_lookup (switchProfile false "" fs A) B p

/-- C3, counterexample: with two footprint files present, a backup run that
fails on its second copy leaves the first copy
(`.ai-config-backups/backup-T/.cursorrules`) in the target directory, so
the directory's content does not equal its content before the switch
began. -/
theorem C3_incomplete_backup_left_behind :
    lookupFS (switchFailedAtBackup [([".cursorrules"], "A"), ([".windsurfrules"], "B")] "T" 1)
        [".ai-config-backups", "backup-T", ".cursorrules"] = some "A" ∧
      lookupFS [([".cursorrules"], "A"), ([".windsurfrules"], "B")]
        [".ai-config-backups", "backup-T", ".cursorrules"] = none := by
  constructor <;> rfl

/-- C3, amended: when the backup step fails, the switch aborts before the
clearing and writing loops (the exception propagates through lines
157-205), so outside the `.ai-config-backups` area every path keeps its
previous content — no footprint file is removed and no profile file is
written; only the partially filled backup directory is new. -/
theorem C3_backup_failure_frame (fs : FS) (ts : String) (k : Nat) (p : FsPath)
    (h : ¬ [".ai-config-backups"] <+: p) :
    lookupFS (switchFailedAtBackup fs ts k) p = lookupFS fs p :=
  backupFiles_frame (footprintUnionStrings.take k) fs ts p h

/-- C3, witness for the amended frame at a concrete failed backup. -/
theorem C3_backup_failure_frame_witness :
    ¬ ([".ai-config-backups"] : FsPath) <+: ["keep.txt"] ∧
      lookupFS (switchFailedAtBackup [(["keep.txt"], "v")] "T" 5) ["keep.txt"] =
        lookupFS [(["keep.txt"], "v")] ["keep.txt"] :=
  ⟨by decide, C3_backup_failure_frame [(["keep.txt"], "v")] "T" 5 ["keep.txt"] (by decide)⟩

/-- C9, counterexample: `.github/workflows/ci.yml` is not itself a member
of the catalogued footprint-path union, is not declared or reserved by the
(empty) incoming profile and is not under `.ai-config-backups`, yet a
successful switch deletes it: the clearing loop removes the `.github`
footprint directory recursively (line 170, `fs.remove`). -/
theorem C9_nested_file_deleted :
    ([".github", "workflows", "ci.yml"] : FsPath) ∉ footprintUnionPaths ∧
      lastWrite emptyProfile.configs [".github", "workflows", "ci.yml"] = none ∧
      reservedWrite emptyProfile [".github", "workflows", "ci.yml"] = none ∧
      ¬ ([".ai-config-backups"] : FsPath) <+: [".github", "workflows", "ci.yml"] ∧
      lookupFS [([".github", "workflows", "ci.yml"], "ci")]
        [".github", "workflows", "ci.yml"] = some "ci" ∧
      lookupFS (switchProfile false "" [([".github", "workflows", "ci.yml"], "ci")] emptyProfile)
        [".github", "workflows", "ci.yml"] = none := by
  refine ⟨by decide, rfl, rfl, by decide, rfl, ?_⟩
  rfl

/-- C9, amended: a path that is neither equal to nor under any catalogued
footprint path, is not written by the incoming profile (neither a declared
file nor a reserved write), and is not in the `.ai-config-backups` area
keeps its content across a successful switch with backup enabled. -/
theorem C9_switch_frame (fs : FS) (prof : AIProfile) (ts : String) (p : FsPath)
    (hcov : coveredBool p = false) (hw : writtenBy prof p = none)
    (hb : ¬ [".ai-config-backups"] <+: p) :
    lookupFS (switchProfile true ts fs prof) p = lookupFS fs p := by
  unfold switchProfile
  rw [if_pos rfl, applyProfile_lookup, hw, hcov]
  simp only [Option.or, Bool.false_eq_true, if_false]
  exact backupFiles_frame footprintUnionStrings fs ts p hb

/-- C9, witness for the frame at a concrete untouched file. -/
theorem C9_switch_frame_witness :
    coveredBool ["keep.txt"] = false ∧ writtenBy emptyProfile ["keep.txt"] = none ∧
      ¬ ([".ai-config-backups"] : FsPath) <+: ["keep.txt"] ∧
      lookupFS (switchProfile true "T" [(["keep.txt"], "v")] emptyProfile) ["keep.txt"] =
        lookupFS [(["keep.txt"], "v")] ["keep.txt"] :=
  ⟨by decide, rfl, by decide,
    C9_switch_frame [(["keep.txt"], "v")] emptyProfile "T" ["keep.txt"] (by decide) rfl
      (by decide)⟩

/-- C4, counterexample: two backup runs with the same timestamp `T` write
into the same `backup-T` directory and the second silently overwrites the
first's copy of `.cursorrules` (fs-extra's `copy` overwrites by default
and `ensureDir` accepts an existing directory; lines 208-231 never check
for a pre-existing backup path), instead of failing with a hard error. -/
theorem C4_collision_overwrites_backup :
    lookupFS (backupCurrentConfig [([".cursorrules"], "A")] "T")
        [".ai-config-backups", "backup-T", ".cursorrules"] = some "A" ∧
      lookupFS
        (backupCurrentConfig
          [([".cursorrules"], "B"),
            ([".ai-config-backups", "backup-T", ".cursorrules"], "A")] "T")
        [".ai-config-backups", "backup-T", ".cursorrules"] = some "B" := by
  constructor <;> rfl

/-- C4, amended: a backup whose timestamp collides with an existing backup
directory does not fail; it writes into the same directory, and each
existing footprint file's backup destination ends up holding the current
source content — colliding files from the earlier backup are overwritten
(and non-colliding ones merely merged alongside). -/
theorem C4_backup_is_overwrite (fs : FS) (ts cf : String) (q : FsPath) (c : String)
    (hnd : keysNodup fs) (hcf : cf ∈ footprintUnionStrings)
    (hj : joinRel cf = some q) (hlk : lookupFS fs q = some c) :
    lookupFS (backupCurrentConfig fs ts) (backupSeg ts ++ q) = some c := by
  have hok : headOKB cf = true := List.all_eq_true.mp footprint_heads_ok cf hcf
  have hqnb : ¬ [".ai-config-backups"] <+: q :=
    headOK_not_backup cf q hok hj q (List.prefix_refl q)
  have hnd' := keysNodup_restrictOut fs hnd
  have hlk' : lookupFS (restrictOut fs) q = some c := by
    rw [lookupFS_restrictOut fs q hqnb]
    exact hlk
  exact backupFiles_write footprintUnionStrings fs ts cf q q c hj (List.prefix_refl q) hqnb
    hnd' hlk' hcf (fun x hx => List.all_eq_true.mp footprint_heads_ok x hx) fs rfl

/-- C4, witness for the amended overwrite behaviour at a concrete
directory already containing an old backup under the same timestamp. -/
theorem C4_backup_is_overwrite_witness :
    keysNodup [([".cursorrules"], "B"),
        ([".ai-config-backups", "backup-T", ".cursorrules"], "A")] ∧
      ".cursorrules" ∈ footprintUnionStrings ∧
      joinRel ".cursorrules" = some [".cursorrules"] ∧
      lookupFS [([".cursorrules"], "B"),
        ([".ai-config-backups", "backup-T", ".cursorrules"], "A")] [".cursorrules"] = some "B" ∧
      lookupFS (backupCurrentConfig [([".cursorrules"], "B"),
        ([".ai-config-backups", "backup-T", ".cursorrules"], "A")] "T")
        (backupSeg "T" ++ [".cursorrules"]) = some "B" :=
  ⟨by decide, by decide, by decide, rfl,
    C4_backup_is_overwrite [([".cursorrules"], "B"),
        ([".ai-config-backups", "backup-T", ".cursorrules"], "A")] "T" ".cursorrules"
      [".cursorrules"] "B" (by decide) (by decide) (by decide) rfl⟩
